import Mathlib

set_option autoImplicit false

/-!
Shallow embedding of `src/CodeAnalyzerEx/Analyzer/Executive.cpp`
(Remote-Code-Publisher).  Pure C++ helpers become Lean functions; the
stateful parts (`AnalFileMgr`, `processSourceCode`, `main`) become explicit
state passing and event traces.  External collaborators that live outside
this translation unit (the FileSystem path helpers, the tokenizer's line
counter, `ConfigureParser::Attach`) are abstract parameters of an
environment record, so every theorem quantifies over their behaviour.
-/

namespace CodeAnalysis

/-- Embeds `std::string::find` of `text` inside `str`, on explicit character lists:
the smallest index at which `text` occurs as a prefix of the remaining
list, `none` when there is no occurrence (C++ `npos`). -/
def findSub (text : List Char) : List Char → Option Nat
  | [] => if text.isPrefixOf ([] : List Char) then some 0 else none
  | c :: rest =>
      if text.isPrefixOf (c :: rest) then some 0
      else (findSub text rest).map (· + 1)

/-- Embeds the free function `contains(str, text)` of Executive.cpp:
`str.find(text) < str.length()`; `find` returns `npos` (never `< length`)
when `text` does not occur. -/
def containsSub (str text : String) : Bool :=
  match findSub text.toList str.toList with
  | some p => decide (p < str.toList.length)
  | none => false

/-- The executive's `FileMap`: `std::unordered_map<Pattern, Files>`,
modelled as an association list so that every possible iteration order of
the hash map is covered by quantifying over the list. -/
abbrev FileMap := List (String × List String)

/-- Embeds `CodeAnalysisExecutive::cppHeaderFiles()`: all files stored under a
pattern key containing `"*.h"` as a substring, in map iteration order. -/
def cppHeaderFiles (fm : FileMap) : List String :=
  (fm.filter (fun kv => containsSub kv.1 "*.h")).flatMap (fun kv => kv.2)

/-- Embeds `CodeAnalysisExecutive::cppImplemFiles()`: all files stored under a
pattern key containing `"*.cpp"` as a substring. -/
def cppImplemFiles (fm : FileMap) : List String :=
  (fm.filter (fun kv => containsSub kv.1 "*.cpp")).flatMap (fun kv => kv.2)

/-- Embeds `CodeAnalysisExecutive::csharpFiles()`: all files stored under a
pattern key containing `"*.cs"` as a substring. -/
def csharpFiles (fm : FileMap) : List String :=
  (fm.filter (fun kv => containsSub kv.1 "*.cs")).flatMap (fun kv => kv.2)

/-- The repository's `Language` tag. -/
inductive Language
  | Cpp
  | CSharp
  deriving DecidableEq

/-- One observable action of `processSourceCode` on the shared repository
and the logger, in program order. -/
inductive Event
  | setPackage (name : String)
  | warn (file : String)
  | setLanguage (lang : Language)
  | setPath (file : String)
  | parse (file : String)
  | recordSloc (name : String) (slocs : Nat)
  deriving DecidableEq

/-- The collaborators `processSourceCode` consults that are declared in
other translation units: `ConfigureParser::Attach` (can the file be
opened), the tokenizer's `currentLineCount()` reached after parsing a
file, and the `FileSystem::Path::getName` / `getExt` helpers. -/
structure Env where
  attach : String → Bool
  slocOf : String → Nat
  getName : String → String
  getExt : String → String

/-- One iteration of a `processSourceCode` loop body, tagged with the file
being processed.  The package field is assigned before `Attach` is tried;
on failure a warning is written and the loop continues (`continue`); on
success language and current path are assigned, the file is parsed to
exhaustion, and one SLOC entry keyed by the package name is recorded. -/
def processFile (env : Env) (lang : Language) (file : String) :
    List (String × Event) :=
  if env.attach file then
    [(file, .setPackage (env.getName file)),
     (file, .setLanguage lang),
     (file, .setPath file),
     (file, .parse file),
     (file, .recordSloc (env.getName file) (env.slocOf file))]
  else
    [(file, .setPackage (env.getName file)), (file, .warn file)]

/-- Embeds `CodeAnalysisExecutive::processSourceCode`: the C++ header loop, then
the C++ implementation loop, then the C# loop; each loop hard-codes the
repository language of its phase. -/
def processSourceCode (env : Env) (fm : FileMap) : List (String × Event) :=
  (cppHeaderFiles fm).flatMap (processFile env .Cpp)
    ++ (cppImplemFiles fm).flatMap (processFile env .Cpp)
    ++ (csharpFiles fm).flatMap (processFile env .CSharp)

/-- The sequence of files actually handed to the parser, in order. -/
def parsedFiles (tr : List (String × Event)) : List String :=
  tr.filterMap (fun fe =>
    match fe.2 with
    | .parse f => some f
    | _ => none)

theorem parsedFiles_append (a b : List (String × Event)) :
    parsedFiles (a ++ b) = parsedFiles a ++ parsedFiles b :=
  List.filterMap_append a b _

theorem parsedFiles_processFile (env : Env) (lang : Language) (f : String) :
    parsedFiles (processFile env lang f) = if env.attach f then [f] else [] := by
  by_cases h : env.attach f <;> simp [processFile, parsedFiles, h]

theorem parsedFiles_flatMap (env : Env) (lang : Language) (l : List String) :
    parsedFiles (l.flatMap (processFile env lang)) = l.filter env.attach := by
  induction l with
  | nil => rfl
  | cons f rest ih =>
      simp only [List.flatMap_cons, parsedFiles_append, parsedFiles_processFile, ih,
        List.filter_cons]
      by_cases h : env.attach f <;> simp [h]

/-- C1: in every run the parser consumes exactly the attachable header
files, then the attachable implementation files, then the attachable C#
files, each phase in discovery order. -/
theorem C1_headers_before_impls_before_csharp (env : Env) (fm : FileMap) :
    parsedFiles (processSourceCode env fm) =
      (cppHeaderFiles fm).filter env.attach
        ++ (cppImplemFiles fm).filter env.attach
        ++ (csharpFiles fm).filter env.attach := by
  simp [processSourceCode, parsedFiles_append, parsedFiles_flatMap]

/-- The executive's `slocMap_`: a map from package (file) name to measured
source-line count, as an association list with unique keys reachable from
the empty map. -/
abbrev SlocMap := List (String × Nat)

/-- Map lookup: the value stored at `k`, if any. -/
def mapLookup (m : SlocMap) (k : String) : Option Nat :=
  match m with
  | [] => none
  | kv :: rest => if kv.1 = k then some kv.2 else mapLookup rest k

/-- Embeds C++ `slocMap_[k] = v`: overwrite the entry at `k` when present,
otherwise insert a fresh entry. -/
def mapAssign (m : SlocMap) (k : String) (v : Nat) : SlocMap :=
  match m with
  | [] => [(k, v)]
  | kv :: rest => if kv.1 = k then (k, v) :: rest else kv :: mapAssign rest k v

/-- Replay the `slocMap_[package] = slocs` assignments of a trace over an
initial map. -/
def runSlocs (m : SlocMap) : List (String × Event) → SlocMap
  | [] => m
  | (_, .recordSloc n s) :: rest => runSlocs (mapAssign m n s) rest
  | (_, .setPackage _) :: rest => runSlocs m rest
  | (_, .warn _) :: rest => runSlocs m rest
  | (_, .setLanguage _) :: rest => runSlocs m rest
  | (_, .setPath _) :: rest => runSlocs m rest
  | (_, .parse _) :: rest => runSlocs m rest

/-- The package names for which a SLOC entry was recorded, in order. -/
def recordedNames (tr : List (String × Event)) : List String :=
  tr.filterMap (fun fe =>
    match fe.2 with
    | .recordSloc n _ => some n
    | _ => none)

theorem mapLookup_mapAssign_ne (m : SlocMap) (k k' : String) (v : Nat)
    (h : k' ≠ k) : mapLookup (mapAssign m k' v) k = mapLookup m k := by
  induction m with
  | nil => simp [mapAssign, mapLookup, h]
  | cons kv rest ih =>
      by_cases hk : kv.1 = k'
      · simp [mapAssign, hk, mapLookup, h]
      · simp only [mapAssign, hk, if_false, mapLookup, ih]

theorem runSlocs_not_recorded (tr : List (String × Event)) (m : SlocMap)
    (k : String) (h : k ∉ recordedNames tr) :
    mapLookup (runSlocs m tr) k = mapLookup m k := by
  induction tr generalizing m with
  | nil => rfl
  | cons fe rest ih =>
      obtain ⟨f, e⟩ := fe
      cases e with
      | recordSloc n s =>
          have hn : n ≠ k := by
            intro hkn
            exact h (by simp [recordedNames, hkn])
          have hrest : k ∉ recordedNames rest := by
            intro hk
            exact h (by simp [recordedNames] at hk ⊢; exact Or.inr hk)
          simp only [runSlocs]
          rw [ih _ hrest, mapLookup_mapAssign_ne _ _ _ _ hn]
      | setPackage n =>
          exact ih m (by intro hk; exact h (by simpa [recordedNames] using hk))
      | warn f' =>
          exact ih m (by intro hk; exact h (by simpa [recordedNames] using hk))
      | setLanguage l =>
          exact ih m (by intro hk; exact h (by simpa [recordedNames] using hk))
      | setPath f' =>
          exact ih m (by intro hk; exact h (by simpa [recordedNames] using hk))
      | parse f' =>
          exact ih m (by intro hk; exact h (by simpa [recordedNames] using hk))

theorem recordedNames_append (a b : List (String × Event)) :
    recordedNames (a ++ b) = recordedNames a ++ recordedNames b :=
  List.filterMap_append a b _

theorem recordedNames_processFile (env : Env) (lang : Language) (f : String) :
    recordedNames (processFile env lang f) =
      if env.attach f then [env.getName f] else [] := by
  by_cases h : env.attach f <;> simp [processFile, recordedNames, h]

theorem recordedNames_flatMap (env : Env) (lang : Language) (l : List String) :
    recordedNames (l.flatMap (processFile env lang)) =
      (l.filter env.attach).map env.getName := by
  induction l with
  | nil => rfl
  | cons f rest ih =>
      simp only [List.flatMap_cons, recordedNames_append, recordedNames_processFile, ih,
        List.filter_cons]
      by_cases h : env.attach f <;> simp [h]

theorem mem_flatMap_processFile_warn (env : Env) (lang : Language)
    (l : List String) (f : String) (hf : env.attach f = false) (hm : f ∈ l) :
    (f, Event.warn f) ∈ l.flatMap (processFile env lang) := by
  refine List.mem_flatMap.2 ⟨f, hm, ?_⟩
  simp [processFile, hf]

theorem parse_mem_processFile (env : Env) (lang : Language) (a g f : String)
    (h : (g, Event.parse f) ∈ processFile env lang a) :
    f = a ∧ env.attach a = true := by
  by_cases ha : env.attach a <;> simp_all [processFile]

theorem mem_flatMap_processFile_parse (env : Env) (lang : Language)
    (l : List String) (g : String) (hg : env.attach g = true) (hm : g ∈ l) :
    (g, Event.parse g) ∈ l.flatMap (processFile env lang) := by
  refine List.mem_flatMap.2 ⟨g, hm, ?_⟩
  simp [processFile, hg]

/-- C3: a file whose `Attach` fails is warned about, is never handed to the
parser, blocks no other attachable file, and (when no attachable file
shares its package name) leaves no SLOC entry under its package name. -/
theorem C3_open_failure_logged_and_skipped (env : Env) (fm : FileMap)
    (f : String) (hf : env.attach f = false)
    (hmem : f ∈ cppHeaderFiles fm ++ cppImplemFiles fm ++ csharpFiles fm) :
    (f, Event.warn f) ∈ processSourceCode env fm
    ∧ (∀ g, (g, Event.parse f) ∉ processSourceCode env fm)
    ∧ (∀ g, g ∈ cppHeaderFiles fm ++ cppImplemFiles fm ++ csharpFiles fm →
        env.attach g = true → (g, Event.parse g) ∈ processSourceCode env fm)
    ∧ ((∀ g, g ∈ cppHeaderFiles fm ++ cppImplemFiles fm ++ csharpFiles fm →
          env.attach g = true → env.getName g ≠ env.getName f) →
        mapLookup (runSlocs [] (processSourceCode env fm)) (env.getName f) = none) := by
  refine ⟨?_, ?_, ?_, ?_⟩
  · rcases List.mem_append.1 hmem with h | h
    · rcases List.mem_append.1 h with h1 | h2
      · exact List.mem_append.2 (Or.inl (List.mem_append.2 (Or.inl
          (mem_flatMap_processFile_warn env .Cpp _ f hf h1))))
      · exact List.mem_append.2 (Or.inl (List.mem_append.2 (Or.inr
          (mem_flatMap_processFile_warn env .Cpp _ f hf h2))))
    · exact List.mem_append.2 (Or.inr
        (mem_flatMap_processFile_warn env .CSharp _ f hf h))
  · intro g hg
    have : f ∈ parsedFiles (processSourceCode env fm) := by
      refine List.mem_filterMap.2 ⟨(g, Event.parse f), hg, rfl⟩
    rw [C1_headers_before_impls_before_csharp] at this
    rcases List.mem_append.1 this with h | h
    · rcases List.mem_append.1 h with h1 | h2
      · exact absurd (List.of_mem_filter h1) (by simp [hf])
      · exact absurd (List.of_mem_filter h2) (by simp [hf])
    · exact absurd (List.of_mem_filter h) (by simp [hf])
  · intro g hg hatt
    rcases List.mem_append.1 hg with h | h
    · rcases List.mem_append.1 h with h1 | h2
      · exact List.mem_append.2 (Or.inl (List.mem_append.2 (Or.inl
          (mem_flatMap_processFile_parse env .Cpp _ g hatt h1))))
      · exact List.mem_append.2 (Or.inl (List.mem_append.2 (Or.inr
          (mem_flatMap_processFile_parse env .Cpp _ g hatt h2))))
    · exact List.mem_append.2 (Or.inr
        (mem_flatMap_processFile_parse env .CSharp _ g hatt h))
  · intro hnames
    refine runSlocs_not_recorded _ _ _ ?_
    intro hk
    simp only [processSourceCode, recordedNames_append, recordedNames_flatMap,
      List.mem_append] at hk
    rcases hk with hk | hk
    · rcases hk with hk | hk
      · obtain ⟨g, hgmem, hgname⟩ := List.mem_map.1 hk
        exact hnames g (List.mem_append.2 (Or.inl (List.mem_append.2 (Or.inl
          (List.mem_of_mem_filter hgmem))))) (List.of_mem_filter hgmem) hgname
      · obtain ⟨g, hgmem, hgname⟩ := List.mem_map.1 hk
        exact hnames g (List.mem_append.2 (Or.inl (List.mem_append.2 (Or.inr
          (List.mem_of_mem_filter hgmem))))) (List.of_mem_filter hgmem) hgname
    · obtain ⟨g, hgmem, hgname⟩ := List.mem_map.1 hk
      exact hnames g (List.mem_append.2 (Or.inr
        (List.mem_of_mem_filter hgmem))) (List.of_mem_filter hgmem) hgname

/-- C3 witness: a concrete map in which `b.h` cannot be opened. -/
theorem C3_open_failure_logged_and_skipped_witness :
    let env : Env :=
      { attach := fun f => decide (f ≠ "b.h"), slocOf := fun _ => 7,
        getName := id, getExt := fun _ => "h" }
    let fm : FileMap := [("*.h", ["a.h", "b.h", "c.h"])]
    ("b.h", Event.warn "b.h") ∈ processSourceCode env fm
    ∧ (∀ g, (g, Event.parse "b.h") ∉ processSourceCode env fm)
    ∧ (∀ g, g ∈ cppHeaderFiles fm ++ cppImplemFiles fm ++ csharpFiles fm →
        env.attach g = true → (g, Event.parse g) ∈ processSourceCode env fm)
    ∧ ((∀ g, g ∈ cppHeaderFiles fm ++ cppImplemFiles fm ++ csharpFiles fm →
          env.attach g = true → env.getName g ≠ env.getName "b.h") →
        mapLookup (runSlocs [] (processSourceCode env fm)) (env.getName "b.h") = none) := by
  intro env fm
  exact C3_open_failure_logged_and_skipped env fm "b.h" (by decide) (by decide)

/-- Embeds `CodeAnalysisExecutive::fileSLOCs`: `return slocMap_[file];`.  The C++
map subscript yields the stored count when present; when absent it
value-initializes a fresh entry to `0` and returns that.  The result pairs
the returned count with the table after the call. -/
def fileSLOCs (m : SlocMap) (file : String) : Nat × SlocMap :=
  match mapLookup m file with
  | some v => (v, m)
  | none => (0, m ++ [(file, 0)])

/-- C6 counterexample: querying a package name with no recorded entry
changes the SLOC table (the subscript operator inserts a zero entry), so
the table is not unchanged for every query. -/
theorem C6_counterexample_query_mutates :
    (fileSLOCs [] "a").2 ≠ ([] : SlocMap) := by decide

/-- C6 amended: a query for a recorded package name returns its count and
leaves the table unchanged; a query for an unrecorded name returns `0` and
inserts a zero entry for that name. -/
theorem C6_fileSLOCs_amended (m : SlocMap) (f : String) :
    (∀ v, mapLookup m f = some v → fileSLOCs m f = (v, m))
    ∧ (mapLookup m f = none → fileSLOCs m f = (0, m ++ [(f, 0)])) := by
  constructor
  · intro v hv
    simp [fileSLOCs, hv]
  · intro hv
    simp [fileSLOCs, hv]

/-- C6 witness: both branches of the amended claim at concrete tables. -/
theorem C6_fileSLOCs_amended_witness :
    fileSLOCs [("a", 3)] "a" = (3, [("a", 3)])
    ∧ fileSLOCs [("a", 3)] "b" = (0, [("a", 3), ("b", 0)]) :=
  ⟨(C6_fileSLOCs_amended [("a", 3)] "a").1 3 (by decide),
   (C6_fileSLOCs_amended [("a", 3)] "b").2 (by decide)⟩

/-- All files stored in the map, in map iteration order. -/
def allFiles (fm : FileMap) : List String :=
  fm.flatMap (fun kv => kv.2)

/-- The repository/logger actions performed while a given file is the
loop's current file. -/
def eventsFor (f : String) (tr : List (String × Event)) : List Event :=
  (tr.filter (fun fe => fe.1 = f)).map (fun fe => fe.2)

/-- The per-file context mutations a successfully attached file receives:
package name, language, current path, the parse, and one SLOC entry. -/
def contextBlock (env : Env) (lang : Language) (f : String) : List Event :=
  [.setPackage (env.getName f), .setLanguage lang, .setPath f, .parse f,
   .recordSloc (env.getName f) (env.slocOf f)]

theorem eventsFor_append (f : String) (a b : List (String × Event)) :
    eventsFor f (a ++ b) = eventsFor f a ++ eventsFor f b := by
  simp [eventsFor, List.filter_append]

theorem eventsFor_processFile_ne (env : Env) (lang : Language) (a f : String)
    (h : a ≠ f) : eventsFor f (processFile env lang a) = [] := by
  by_cases hatt : env.attach a <;> simp [processFile, eventsFor, hatt, h]

theorem eventsFor_processFile_self (env : Env) (lang : Language) (f : String)
    (hatt : env.attach f = true) :
    eventsFor f (processFile env lang f) = contextBlock env lang f := by
  simp [processFile, eventsFor, hatt, contextBlock]

theorem eventsFor_flatMap (env : Env) (lang : Language) (l : List String)
    (f : String) (hatt : env.attach f = true) :
    eventsFor f (l.flatMap (processFile env lang)) =
      (List.replicate (l.count f) (contextBlock env lang f)).flatten := by
  induction l with
  | nil => rfl
  | cons a rest ih =>
      rw [List.flatMap_cons, eventsFor_append, ih]
      by_cases ha : a = f
      · subst ha
        rw [eventsFor_processFile_self env lang a hatt, List.count_cons_self]
        simp [List.replicate_succ]
      · rw [eventsFor_processFile_ne env lang a f ha,
          List.count_cons_of_ne (fun h => ha h.symm)]
        simp

theorem count_flatMap_filter_eq (P : String × List String → Bool)
    (fm : FileMap) (f : String)
    (h : ∀ kv ∈ fm, f ∈ kv.2 → P kv = true) :
    ((fm.filter P).flatMap (fun kv => kv.2)).count f =
      (fm.flatMap (fun kv => kv.2)).count f := by
  induction fm with
  | nil => rfl
  | cons kv rest ih =>
      have ihh := ih (fun kv' hkv' => h kv' (List.mem_cons_of_mem _ hkv'))
      by_cases hp : P kv
      · rw [List.filter_cons_of_pos hp, List.flatMap_cons, List.flatMap_cons,
          List.count_append, List.count_append, ihh]
      · have hf : f ∉ kv.2 := fun hmem =>
          hp (by rw [h kv (List.mem_cons_self _ _) hmem])
        rw [List.filter_cons_of_neg hp, List.flatMap_cons, List.count_append,
          ihh, List.count_eq_zero.2 hf]
        omega

theorem count_flatMap_filter_zero (P : String × List String → Bool)
    (fm : FileMap) (f : String)
    (h : ∀ kv ∈ fm, f ∈ kv.2 → P kv = false) :
    ((fm.filter P).flatMap (fun kv => kv.2)).count f = 0 := by
  rw [List.count_eq_zero]
  intro hmem
  obtain ⟨kv, hkv, hf⟩ := List.mem_flatMap.1 hmem
  have h1 := h kv (List.mem_of_mem_filter hkv) hf
  have h2 := List.of_mem_filter hkv
  rw [h1] at h2
  exact Bool.noConfusion h2

/-- C5: for a file discovered under its own extension's pattern key,
appearing once in the map and successfully attached, the complete sequence
of repository actions taken for that file is: package set to its name once,
language set once (`Cpp` in the `.h`/`.cpp` phases, `CSharp` in the `.cs`
phase), current path set to the file once, one parse, and exactly one SLOC
entry keyed by its package name recorded at parse completion. -/
theorem C5_context_mutated_once_per_file (env : Env) (fm : FileMap)
    (hwf : ∀ kv ∈ fm, ∀ g ∈ kv.2, kv.1 = "*." ++ env.getExt g)
    (f : String) (hone : (allFiles fm).count f = 1)
    (hatt : env.attach f = true) :
    (env.getExt f = "h" ∨ env.getExt f = "cpp" →
      eventsFor f (processSourceCode env fm) = contextBlock env .Cpp f)
    ∧ (env.getExt f = "cs" →
      eventsFor f (processSourceCode env fm) = contextBlock env .CSharp f) := by
  have hsplit : eventsFor f (processSourceCode env fm) =
      (List.replicate ((cppHeaderFiles fm).count f)
        (contextBlock env .Cpp f)).flatten
      ++ (List.replicate ((cppImplemFiles fm).count f)
        (contextBlock env .Cpp f)).flatten
      ++ (List.replicate ((csharpFiles fm).count f)
        (contextBlock env .CSharp f)).flatten := by
    rw [processSourceCode, eventsFor_append, eventsFor_append,
      eventsFor_flatMap env .Cpp _ f hatt, eventsFor_flatMap env .Cpp _ f hatt,
      eventsFor_flatMap env .CSharp _ f hatt]
  constructor
  · rintro (hext | hext)
    · have hh : (cppHeaderFiles fm).count f = 1 := by
        rw [cppHeaderFiles, count_flatMap_filter_eq _ _ _ ?_]
        · exact hone
        · intro kv hkv hf
          rw [hwf kv hkv f hf, hext]
          decide
      have hi : (cppImplemFiles fm).count f = 0 := by
        refine count_flatMap_filter_zero _ _ _ ?_
        intro kv hkv hf
        rw [hwf kv hkv f hf, hext]
        decide
      have hc : (csharpFiles fm).count f = 0 := by
        refine count_flatMap_filter_zero _ _ _ ?_
        intro kv hkv hf
        rw [hwf kv hkv f hf, hext]
        decide
      rw [hsplit, hh, hi, hc]
      simp
    · have hh : (cppHeaderFiles fm).count f = 0 := by
        refine count_flatMap_filter_zero _ _ _ ?_
        intro kv hkv hf
        rw [hwf kv hkv f hf, hext]
        decide
      have hi : (cppImplemFiles fm).count f = 1 := by
        rw [cppImplemFiles, count_flatMap_filter_eq _ _ _ ?_]
        · exact hone
        · intro kv hkv hf
          rw [hwf kv hkv f hf, hext]
          decide
      have hc : (csharpFiles fm).count f = 0 := by
        refine count_flatMap_filter_zero _ _ _ ?_
        intro kv hkv hf
        rw [hwf kv hkv f hf, hext]
        decide
      rw [hsplit, hh, hi, hc]
      simp
  · intro hext
    have hh : (cppHeaderFiles fm).count f = 0 := by
      refine count_flatMap_filter_zero _ _ _ ?_
      intro kv hkv hf
      rw [hwf kv hkv f hf, hext]
      decide
    have hi : (cppImplemFiles fm).count f = 0 := by
      refine count_flatMap_filter_zero _ _ _ ?_
      intro kv hkv hf
      rw [hwf kv hkv f hf, hext]
      decide
    have hc : (csharpFiles fm).count f = 1 := by
      rw [csharpFiles, count_flatMap_filter_eq _ _ _ ?_]
      · exact hone
      · intro kv hkv hf
        rw [hwf kv hkv f hf, hext]
        decide
    rw [hsplit, hh, hi, hc]
    simp

/-- C5 witness: one header file and one C# file in a concrete map. -/
theorem C5_context_mutated_once_per_file_witness :
    let env : Env :=
      { attach := fun _ => true, slocOf := fun _ => 5, getName := id,
        getExt := fun g => if g = "a.cs" then "cs"
          else if g = "a.cpp" then "cpp" else "h" }
    let fm : FileMap := [("*.h", ["a.h"]), ("*.cpp", ["a.cpp"]), ("*.cs", ["a.cs"])]
    eventsFor "a.h" (processSourceCode env fm) = contextBlock env .Cpp "a.h"
    ∧ eventsFor "a.cs" (processSourceCode env fm) = contextBlock env .CSharp "a.cs" := by
  intro env fm
  exact ⟨(C5_context_mutated_once_per_file env fm (by decide) "a.h" (by decide)
      (by decide)).1 (Or.inl (by decide)),
    (C5_context_mutated_once_per_file env fm (by decide) "a.cs" (by decide)
      (by decide)).2 (by decide)⟩

/-- C9: dialect classification is by substring match on the pattern key:
`"*.hpp"` and `"*.html"` keys both contain `"*.h"`, every file under a key
containing `"*.h"` is returned by `cppHeaderFiles()` and parsed in the
C++-declaration phase when attachable, and likewise `"*.cpp"` keys feed
`cppImplemFiles()` and `"*.cs"` keys feed `csharpFiles()`. -/
theorem C9_classification_by_substring (fm : FileMap) :
    (containsSub "*.hpp" "*.h" = true ∧ containsSub "*.html" "*.h" = true)
    ∧ (∀ kv ∈ fm, containsSub kv.1 "*.h" = true →
        ∀ f ∈ kv.2, f ∈ cppHeaderFiles fm)
    ∧ (∀ kv ∈ fm, containsSub kv.1 "*.cpp" = true →
        ∀ f ∈ kv.2, f ∈ cppImplemFiles fm)
    ∧ (∀ kv ∈ fm, containsSub kv.1 "*.cs" = true →
        ∀ f ∈ kv.2, f ∈ csharpFiles fm)
    ∧ (∀ env : Env, ∀ kv ∈ fm, containsSub kv.1 "*.h" = true →
        ∀ f ∈ kv.2, env.attach f = true →
          (f, Event.parse f) ∈ processSourceCode env fm) := by
  refine ⟨⟨by decide, by decide⟩, ?_, ?_, ?_, ?_⟩
  · intro kv hkv hc f hf
    exact List.mem_flatMap.2 ⟨kv, List.mem_filter.2 ⟨hkv, hc⟩, hf⟩
  · intro kv hkv hc f hf
    exact List.mem_flatMap.2 ⟨kv, List.mem_filter.2 ⟨hkv, hc⟩, hf⟩
  · intro kv hkv hc f hf
    exact List.mem_flatMap.2 ⟨kv, List.mem_filter.2 ⟨hkv, hc⟩, hf⟩
  · intro env kv hkv hc f hf hatt
    have hmem : f ∈ cppHeaderFiles fm :=
      List.mem_flatMap.2 ⟨kv, List.mem_filter.2 ⟨hkv, hc⟩, hf⟩
    exact List.mem_append.2 (Or.inl (List.mem_append.2 (Or.inl
      (mem_flatMap_processFile_parse env .Cpp _ f hatt hmem))))

/-- C9 witness: a `"*.hpp"` key's file lands in the header list and is
parsed in the header phase. -/
theorem C9_classification_by_substring_witness :
    let env : Env :=
      { attach := fun _ => true, slocOf := fun _ => 1, getName := id,
        getExt := fun _ => "hpp" }
    let fm : FileMap := [("*.hpp", ["x.hpp"])]
    "x.hpp" ∈ cppHeaderFiles fm
    ∧ ("x.hpp", Event.parse "x.hpp") ∈ processSourceCode env fm := by
  intro env fm
  exact ⟨(C9_classification_by_substring fm).2.1 ("*.hpp", ["x.hpp"])
      (by decide) (by decide) "x.hpp" (by decide),
    (C9_classification_by_substring fm).2.2.2.2 env ("*.hpp", ["x.hpp"])
      (by decide) (by decide) "x.hpp" (by decide) (by decide)⟩

/-- The state of `AnalFileMgr`: the current directory `d_`, the referenced
`fileMap_`, and the `numFiles_` / `numDirs_` counters. -/
structure MgrState where
  d : String
  fileMap : FileMap
  numFiles : Nat
  numDirs : Nat
  deriving DecidableEq

/-- One notification delivered by `FileMgr::search()` to the overrides:
either `dir(d)` or `file(f)`. -/
inductive FsNote
  | dir (d : String)
  | file (f : String)
  deriving DecidableEq

/-- Embeds C++ `fileMap_[p].push_back(f)`: append `f` to the collection stored
under pattern `p`, creating the entry when absent. -/
def mapAppendFile (fm : FileMap) (p : String) (f : String) : FileMap :=
  match fm with
  | [] => [(p, [f])]
  | kv :: rest =>
      if kv.1 = p then (kv.1, kv.2 ++ [f]) :: rest
      else kv :: mapAppendFile rest p f

/-- Embeds the overrides: `AnalFileMgr::dir` saves the current directory and bumps `numDirs_`;
`AnalFileMgr::file` appends `d_ + "\\" + f` under the key `"*." + ext` and
bumps `numFiles_`. -/
def mgrStep (env : Env) (s : MgrState) : FsNote → MgrState
  | .dir d => { s with d := d, numDirs := s.numDirs + 1 }
  | .file f =>
      { s with
        fileMap := mapAppendFile s.fileMap
          ("*." ++ env.getExt (s.d ++ "\\" ++ f)) (s.d ++ "\\" ++ f),
        numFiles := s.numFiles + 1 }

/-- Replay a whole notification sequence of a search. -/
def mgrRun (env : Env) (s : MgrState) (ns : List FsNote) : MgrState :=
  ns.foldl (mgrStep env) s

/-- Total number of file paths stored in the map. -/
def totalFiles (fm : FileMap) : Nat :=
  (allFiles fm).length

/-- Number of directory notifications in a sequence. -/
def countDirs : List FsNote → Nat
  | [] => 0
  | .dir _ :: rest => countDirs rest + 1
  | .file _ :: rest => countDirs rest

/-- Number of file notifications in a sequence. -/
def countFileNotes : List FsNote → Nat
  | [] => 0
  | .dir _ :: rest => countFileNotes rest
  | .file _ :: rest => countFileNotes rest + 1

theorem totalFiles_mapAppendFile (fm : FileMap) (p f : String) :
    totalFiles (mapAppendFile fm p f) = totalFiles fm + 1 := by
  induction fm with
  | nil => rfl
  | cons kv rest ih =>
      by_cases hp : kv.1 = p
      · simp only [mapAppendFile, hp, if_true, totalFiles, allFiles,
          List.flatMap_cons, List.length_append]
        simp
        omega
      · simp only [mapAppendFile, hp, if_false]
        simp only [totalFiles, allFiles, List.flatMap_cons, List.length_append] at ih ⊢
        omega

theorem mgrRun_numDirs (env : Env) (ns : List FsNote) :
    ∀ s : MgrState, (mgrRun env s ns).numDirs = s.numDirs + countDirs ns := by
  induction ns with
  | nil => intro s; rfl
  | cons n rest ih =>
      intro s
      cases n with
      | dir d => simp only [mgrRun, List.foldl_cons] at ih ⊢; rw [ih]; simp [mgrStep, countDirs]; omega
      | file f => simp only [mgrRun, List.foldl_cons] at ih ⊢; rw [ih]; simp [mgrStep, countDirs]

theorem mgrRun_numFiles (env : Env) (ns : List FsNote) :
    ∀ s : MgrState, (mgrRun env s ns).numFiles = s.numFiles + countFileNotes ns := by
  induction ns with
  | nil => intro s; rfl
  | cons n rest ih =>
      intro s
      cases n with
      | dir d => simp only [mgrRun, List.foldl_cons] at ih ⊢; rw [ih]; simp [mgrStep, countFileNotes]
      | file f => simp only [mgrRun, List.foldl_cons] at ih ⊢; rw [ih]; simp [mgrStep, countFileNotes]; omega

theorem mgrRun_totalFiles (env : Env) (ns : List FsNote) :
    ∀ s : MgrState,
      totalFiles (mgrRun env s ns).fileMap =
        totalFiles s.fileMap + countFileNotes ns := by
  induction ns with
  | nil => intro s; rfl
  | cons n rest ih =>
      intro s
      cases n with
      | dir d => simp only [mgrRun, List.foldl_cons] at ih ⊢; rw [ih]; simp [mgrStep, countFileNotes]
      | file f =>
          simp only [mgrRun, List.foldl_cons] at ih ⊢
          rw [ih]
          simp only [mgrStep, totalFiles_mapAppendFile, countFileNotes]
          omega

/-- C7: every file notification appends the current directory joined with
the file name under the key `"*."` followed by the file's extension, and
after the search `numFiles()` equals the number of files this manager
stored into the map while `numDirs()` equals the number of directories
visited. -/
theorem C7_fileMgr_accumulates (env : Env) (fm0 : FileMap) (ns : List FsNote) :
    (∀ pre f post, ns = pre ++ FsNote.file f :: post →
      mgrRun env ⟨"", fm0, 0, 0⟩ (pre ++ [FsNote.file f]) =
        (let s1 := mgrRun env ⟨"", fm0, 0, 0⟩ pre
         { s1 with
           fileMap := mapAppendFile s1.fileMap
             ("*." ++ env.getExt (s1.d ++ "\\" ++ f)) (s1.d ++ "\\" ++ f),
           numFiles := s1.numFiles + 1 }))
    ∧ totalFiles (mgrRun env ⟨"", fm0, 0, 0⟩ ns).fileMap =
        totalFiles fm0 + (mgrRun env ⟨"", fm0, 0, 0⟩ ns).numFiles
    ∧ (mgrRun env ⟨"", fm0, 0, 0⟩ ns).numDirs = countDirs ns := by
  refine ⟨?_, ?_, ?_⟩
  · intro pre f post _
    rw [mgrRun, List.foldl_append]
    rfl
  · rw [mgrRun_totalFiles, mgrRun_numFiles]
    simp
  · rw [mgrRun_numDirs]
    simp

/-- C7 witness: a concrete search visiting two directories and storing
three files. -/
theorem C7_fileMgr_accumulates_witness :
    let env : Env :=
      { attach := fun _ => true, slocOf := fun _ => 1, getName := id,
        getExt := fun g => if g = "C:\\x\\a.h" then "h" else "cpp" }
    let ns : List FsNote :=
      [FsNote.dir "C:\\x", FsNote.file "a.h", FsNote.file "b.cpp",
       FsNote.dir "C:\\y", FsNote.file "c.cpp"]
    (mgrRun env ⟨"", [], 0, 0⟩ ([FsNote.dir "C:\\x"] ++ [FsNote.file "a.h"]) =
      (let s1 := mgrRun env ⟨"", [], 0, 0⟩ [FsNote.dir "C:\\x"]
       { s1 with
         fileMap := mapAppendFile s1.fileMap
           ("*." ++ env.getExt (s1.d ++ "\\" ++ "a.h")) (s1.d ++ "\\" ++ "a.h"),
         numFiles := s1.numFiles + 1 }))
    ∧ totalFiles (mgrRun env ⟨"", [], 0, 0⟩ ns).fileMap =
        totalFiles [] + (mgrRun env ⟨"", [], 0, 0⟩ ns).numFiles
    ∧ (mgrRun env ⟨"", [], 0, 0⟩ ns).numDirs = countDirs ns := by
  intro env ns
  exact ⟨(C7_fileMgr_accumulates env [] ns).1 [FsNote.dir "C:\\x"] "a.h"
      [FsNote.file "b.cpp", FsNote.dir "C:\\y", FsNote.file "c.cpp"] rfl,
    (C7_fileMgr_accumulates env [] ns).2.1,
    (C7_fileMgr_accumulates env [] ns).2.2⟩

/-- The `ASTNode` attributes `displayMetricsLine` reads (declared in
AbstrSynTree.h; the line counts and complexity are `size_t`). -/
structure ASTNode where
  type_ : String
  name_ : String
  package_ : String
  startLineCount : Nat
  endLineCount : Nat
  complexity : Nat
  deriving DecidableEq

/-- One row of the metrics table as assembled by `displayMetricsLine`. -/
structure MetricsRow where
  fileCol : String
  typeCol : String
  nameCol : String
  lineCol : Nat
  sizeCol : Nat
  cplxCol : Nat
  deriving DecidableEq

/-- The local `trunc` lambda: `in.substr(0, count)`. -/
def trunc (s : String) (count : Nat) : String :=
  (s.toList.take count).asString

/-- The size column `endLineCount_ - startLineCount_ + 1`, computed in
`size_t` arithmetic (wrap-around modulo `2^64`). -/
def sizeColOf (n : ASTNode) : Nat :=
  ((n.endLineCount % 18446744073709551616
      + (18446744073709551616 - n.startLineCount % 18446744073709551616))
    % 18446744073709551616 + 1) % 18446744073709551616

/-- Embeds `CodeAnalysisExecutive::displayMetricsLine`: the row written for one
AST node — file name truncated to 23 columns, scope type, scope name
truncated to 33 columns, start line, size in lines, complexity. -/
def displayMetricsLine (file : String) (n : ASTNode) : MetricsRow :=
  { fileCol := trunc file 23
    typeCol := n.type_
    nameCol := trunc n.name_ 33
    lineCol := n.startLineCount
    sizeCol := sizeColOf n
    cplxCol := n.complexity }

/-- C8: for every displayed node whose line range is well formed (start
positive, start ≤ end, end below `2^64`), the size column equals
end line − start line + 1, alongside the file name, scope kind, scope
name, start line and complexity columns. -/
theorem C8_metrics_size_column (file : String) (n : ASTNode)
    (hpos : 0 < n.startLineCount)
    (hle : n.startLineCount ≤ n.endLineCount)
    (hlt : n.endLineCount < 18446744073709551616) :
    (displayMetricsLine file n).sizeCol =
        n.endLineCount - n.startLineCount + 1
    ∧ (displayMetricsLine file n).lineCol = n.startLineCount
    ∧ (displayMetricsLine file n).cplxCol = n.complexity
    ∧ (displayMetricsLine file n).typeCol = n.type_
    ∧ (displayMetricsLine file n).fileCol = trunc file 23
    ∧ (displayMetricsLine file n).nameCol = trunc n.name_ 33 := by
  refine ⟨?_, rfl, rfl, rfl, rfl, rfl⟩
  simp only [displayMetricsLine, sizeColOf]
  omega

/-- C8 witness: a concrete function node spanning lines 3–10. -/
theorem C8_metrics_size_column_witness :
    (displayMetricsLine "Executive.cpp"
      ⟨"function", "main", "Executive.cpp", 3, 10, 2⟩).sizeCol = 10 - 3 + 1 :=
  (C8_metrics_size_column "Executive.cpp"
    ⟨"function", "main", "Executive.cpp", 3, 10, 2⟩
    (by decide) (by decide) (by decide)).1

/-- The state `ProcessCommandLine` leaves behind: its return value, the
resolved `path_`, the recorded `options_`, and the recorded `patterns_`. -/
structure CmdResult where
  ok : Bool
  path : String
  options : List Char
  patterns : List String
  deriving DecidableEq

/-- Reads `argv[i][0]` of a C string: the first character, `'\0'` when empty. -/
def firstCharC (s : String) : Char :=
  match s.toList with
  | [] => Char.ofNat 0
  | c :: _ => c

/-- Reads `argv[i][1]` of a C string whose first character was matched: the
second character, `'\0'` when shorter. -/
def secondCharC (s : String) : Char :=
  match s.toList with
  | _ :: c :: _ => c
  | _ => Char.ofNat 0

/-- Embeds `CodeAnalysisExecutive::ProcessCommandLine`, with the external
`FileSystem::Path::getFullFileSpec` and `FileSystem::Directory::exists`
abstracted as total function parameters: fewer than two arguments fails;
a nonexistent resolved path fails; arguments after the path starting with
`'/'` record their second character as an option, the rest are recorded
as patterns; no pattern recorded fails. -/
def processCommandLine (fullSpec : String → String)
    (dirExists : String → Bool) (argv : List String) : CmdResult :=
  match argv with
  | _ :: a1 :: rest =>
      let path := fullSpec a1
      if dirExists path = false then ⟨false, path, [], []⟩
      else
        let options := (rest.filter (fun a => firstCharC a == '/')).map secondCharC
        let patterns := rest.filter (fun a => !(firstCharC a == '/'))
        if patterns = [] then ⟨false, path, options, patterns⟩
        else ⟨true, path, options, patterns⟩
  | _ => ⟨false, "", [], []⟩

/-- C10: `ProcessCommandLine` returns `false` exactly when fewer than two
arguments are given, the resolved path does not exist, or no non-option
argument follows the path; on success the options are the second
characters of the `'/'`-arguments after the path and the patterns are the
remaining arguments, each in command-line order. -/
theorem C10_processCommandLine_result (fullSpec : String → String)
    (dirExists : String → Bool) (argv : List String) :
    ((processCommandLine fullSpec dirExists argv).ok = false ↔
      (argv.length < 2
        ∨ (∃ a1, argv.get? 1 = some a1 ∧ dirExists (fullSpec a1) = false)
        ∨ (argv.drop 2).filter (fun a => !(firstCharC a == '/')) = []))
    ∧ ((processCommandLine fullSpec dirExists argv).ok = true →
        (processCommandLine fullSpec dirExists argv).options =
          ((argv.drop 2).filter (fun a => firstCharC a == '/')).map secondCharC
        ∧ (processCommandLine fullSpec dirExists argv).patterns =
          (argv.drop 2).filter (fun a => !(firstCharC a == '/'))) := by
  match argv with
  | [] => simp [processCommandLine]
  | [a0] => simp [processCommandLine]
  | a0 :: a1 :: rest =>
      by_cases hd : dirExists (fullSpec a1) = false
      · simp [processCommandLine, hd]
      · by_cases hp : rest.filter (fun a => !(firstCharC a == '/')) = []
        · simp [processCommandLine, hd, hp]
        · simp [processCommandLine, hd, hp]

/-- C10 witness: a run with a valid path, one option and one pattern, and
a run whose path does not exist. -/
theorem C10_processCommandLine_result_witness :
    ((processCommandLine id (fun _ => true)
        ["exe", "C:\\code", "/m", "*.h"]).ok = false ↔
      ((["exe", "C:\\code", "/m", "*.h"] : List String).length < 2
        ∨ (∃ a1, (["exe", "C:\\code", "/m", "*.h"] : List String).get? 1 = some a1
            ∧ (fun (_ : String) => true) (id a1) = false)
        ∨ ((["exe", "C:\\code", "/m", "*.h"] : List String).drop 2).filter
            (fun a => !(firstCharC a == '/')) = []))
    ∧ ((processCommandLine id (fun _ => true)
        ["exe", "C:\\code", "/m", "*.h"]).ok = true →
        (processCommandLine id (fun _ => true)
          ["exe", "C:\\code", "/m", "*.h"]).options =
            (((["exe", "C:\\code", "/m", "*.h"] : List String).drop 2).filter
              (fun a => firstCharC a == '/')).map secondCharC
        ∧ (processCommandLine id (fun _ => true)
          ["exe", "C:\\code", "/m", "*.h"]).patterns =
            ((["exe", "C:\\code", "/m", "*.h"] : List String).drop 2).filter
              (fun a => !(firstCharC a == '/'))) :=
  C10_processCommandLine_result id (fun _ => true) ["exe", "C:\\code", "/m", "*.h"]

/-- One top-level step of `main`, with `processSourceCode`'s per-file
actions inlined so the pass ordering is visible in one trace. -/
inductive MainEv
  | constructed
  | cmdLineChecked (ok : Bool)
  | modesSet
  | loggerStarted
  | argsShown
  | filesGathered
  | fileEv (f : String) (e : Event)
  | complexityPass
  | dependencyPass
  | publisherCalled
  | requirementsShown
  deriving DecidableEq

/-- How the process ends: a `return code` from `main`, or abnormal
termination from an exception that escapes `main` uncaught. -/
inductive Outcome
  | terminated (code : Nat)
  | abortedUncaught
  deriving DecidableEq

/-- Does the process end with a nonzero (or abnormal) exit status? -/
def exitsNonzero : Outcome → Bool
  | .terminated c => c != 0
  | .abortedUncaught => true

/-- Embeds `main` of Executive.cpp.  `CodeAnalysisExecutive exec;` runs before
the `try` block, so a parser-construction failure (`Build()` returning
null makes the constructor throw) escapes `main` uncaught.  Otherwise:
`ProcessCommandLine` failing returns `1`; on success `main` runs
`getSourceFiles` (the `AnalFileMgr` search over the notification
sequence), `processSourceCode`, `complexityAnalysis`, the type-dependency
analysis (`TypeAnal::dependencyTable`), the publisher, and the
requirements display, then returns `0`. -/
def mainRun (env : Env) (buildOk : Bool) (cmdOk : Bool)
    (notes : List FsNote) : Outcome × List MainEv :=
  if buildOk = false then (.abortedUncaught, [])
  else if cmdOk = false then
    (.terminated 1, [.constructed, .cmdLineChecked false])
  else
    (.terminated 0,
      [.constructed, .cmdLineChecked true, .modesSet, .loggerStarted,
        .argsShown, .filesGathered]
      ++ (processSourceCode env
            (mgrRun env ⟨"", [], 0, 0⟩ notes).fileMap).map
          (fun fe => MainEv.fileEv fe.1 fe.2)
      ++ [.complexityPass, .dependencyPass, .publisherCalled,
          .requirementsShown])

/-- Is this a per-file action of `processSourceCode`? -/
def isFileEv : MainEv → Bool
  | .fileEv _ _ => true
  | _ => false

/-- Is this the complexity-evaluation pass? -/
def isComplexityPass : MainEv → Bool
  | .complexityPass => true
  | _ => false

/-- Is this the type-dependency-analysis pass? -/
def isDependencyPass : MainEv → Bool
  | .dependencyPass => true
  | _ => false

theorem countP_fileEv_complexity (tr : List (String × Event)) :
    (tr.map (fun fe => MainEv.fileEv fe.1 fe.2)).countP isComplexityPass = 0 := by
  induction tr with
  | nil => rfl
  | cons fe rest ih =>
      rw [List.map_cons, List.countP_cons]
      simp [isComplexityPass, ih]

theorem countP_fileEv_dependency (tr : List (String × Event)) :
    (tr.map (fun fe => MainEv.fileEv fe.1 fe.2)).countP isDependencyPass = 0 := by
  induction tr with
  | nil => rfl
  | cons fe rest ih =>
      rw [List.map_cons, List.countP_cons]
      simp [isDependencyPass, ih]

/-- C2: in every run that reaches the analysis, the complexity pass and
the dependency pass each occur exactly once, no per-file parsing action
occurs at or after the complexity pass, and the dependency pass follows
it — both passes run only after `processSourceCode` has finished every
input file. -/
theorem C2_post_passes_once_after_all_files (env : Env) (notes : List FsNote)
    (buildOk cmdOk : Bool) (hb : buildOk = true) (hc : cmdOk = true) :
    ∃ p q, (mainRun env buildOk cmdOk notes).2 = p ++ MainEv.complexityPass :: q
      ∧ (∀ x ∈ q, isFileEv x = false)
      ∧ (∀ x ∈ p, isComplexityPass x = false ∧ isDependencyPass x = false)
      ∧ MainEv.dependencyPass ∈ q
      ∧ (mainRun env buildOk cmdOk notes).2.countP isComplexityPass = 1
      ∧ (mainRun env buildOk cmdOk notes).2.countP isDependencyPass = 1 := by
  subst hb hc
  have htr : (mainRun env true true notes).2 =
      ([MainEv.constructed, MainEv.cmdLineChecked true, MainEv.modesSet,
        MainEv.loggerStarted, MainEv.argsShown, MainEv.filesGathered]
        ++ (processSourceCode env
              (mgrRun env ⟨"", [], 0, 0⟩ notes).fileMap).map
            (fun fe => MainEv.fileEv fe.1 fe.2))
      ++ MainEv.complexityPass ::
        [MainEv.dependencyPass, MainEv.publisherCalled,
          MainEv.requirementsShown] := by
    simp [mainRun]
  refine ⟨_, _, htr, ?_, ?_, ?_, ?_, ?_⟩
  · decide
  · intro x hx
    rcases List.mem_append.1 hx with hx | hx
    · fin_cases hx <;> exact ⟨rfl, rfl⟩
    · obtain ⟨fe, _, rfl⟩ := List.mem_map.1 hx
      exact ⟨rfl, rfl⟩
  · decide
  · rw [htr, List.countP_append, List.countP_append,
      countP_fileEv_complexity]
    decide
  · rw [htr, List.countP_append, List.countP_append,
      countP_fileEv_dependency]
    decide

/-- C2 witness: a concrete environment and search with one header file. -/
theorem C2_post_passes_once_after_all_files_witness :
    let env : Env :=
      { attach := fun _ => true, slocOf := fun _ => 2, getName := id,
        getExt := fun _ => "h" }
    let notes : List FsNote := [FsNote.dir "C:\\x", FsNote.file "a.h"]
    ∃ p q, (mainRun env true true notes).2 = p ++ MainEv.complexityPass :: q
      ∧ (∀ x ∈ q, isFileEv x = false)
      ∧ (∀ x ∈ p, isComplexityPass x = false ∧ isDependencyPass x = false)
      ∧ MainEv.dependencyPass ∈ q
      ∧ (mainRun env true true notes).2.countP isComplexityPass = 1
      ∧ (mainRun env true true notes).2.countP isDependencyPass = 1 := by
  intro env notes
  exact C2_post_passes_once_after_all_files env notes true true rfl rfl

/-- C4: when the parser cannot be built the constructor's exception
escapes `main` uncaught — the process ends abnormally (nonzero status)
with an empty trace, before any file is discovered or processed; when the
parser is built, no run aborts: `main` always returns an exit code. -/
theorem C4_parser_construction_failure_fatal (env : Env)
    (notes : List FsNote) (cmdOk : Bool) :
    mainRun env false cmdOk notes = (Outcome.abortedUncaught, [])
    ∧ exitsNonzero (mainRun env false cmdOk notes).1 = true
    ∧ ∃ c, (mainRun env true cmdOk notes).1 = Outcome.terminated c := by
  refine ⟨by simp [mainRun], by simp [mainRun, exitsNonzero], ?_⟩
  by_cases hc : cmdOk = false
  · exact ⟨1, by simp [mainRun, hc]⟩
  · exact ⟨0, by simp [mainRun, hc]⟩

end CodeAnalysis
